import Mathlib

/-!
Verification of the HNSW (hierarchical navigable small world) index of the
`hnswgo` repository against its natural-language specification.

The repository contains two variants of the index in the same package:
a slice-based variant (modelled below in namespace `HnswOne`) whose layers
are `map[int][]int`, and a heap-based variant (namespace `Hnsw`) whose
layers are `map[int]*CandidateHeap`, together with the generic
`CandidateHeap` of `util/heap` and the `models` package.

Modelling conventions, used consistently below:

* Go `int` is modelled as `Int`, Go slices as `List`, Go maps as
  association lists (`List (Int × _)`); a map read of an absent key yields
  the zero value exactly as in Go wherever Go defines it.
* A Go runtime panic (out-of-range slice index, nil-pointer method call,
  nil-slice index) is modelled by `Option`: a function returns `none`
  exactly on the inputs where the Go code panics.
* The distance function of the source computes
  `math.Sqrt(Σ (e1[i]-e2[i])²)` over `float64`.  Every use of a distance
  in the source is a strict order comparison between two distances
  (`<`, `>`, or `x - y > 0`), and `Real.sqrt` is strictly monotone on
  nonnegative inputs, so we model the *squared* distance over `Int`
  (vectors are integer-valued in all concrete inputs): the control flow of
  every algorithm is bit-for-bit identical.
* `generateLevel` calls the process-global `math/rand.Float64()`.  We model
  the global generator as an explicit stream of the integer levels it
  produces, threaded through every build; two indexes built in the same
  process consume successive prefixes of the one shared stream, which is
  exactly the behaviour of the Go global source.
* Go's `container/heap` is modelled operation by operation (`up`, `down`,
  `Init`, `Push`, `Pop` including the final slice `Pop` of the interface),
  with an explicit fuel argument for the sift loops; the fuel supplied at
  every call site is an over-approximation of the loop depth (the sift
  index at least doubles per step, and the loops stop at the size bound),
  so the fuel never runs out.
-/

/-- Candidate mirrors `models.Candidate`: a node id and its distance to the
query point (squared-distance model, see the file header). -/
structure Candidate where
  NodeID : Int
  Distance : Int
deriving DecidableEq, Repr, Inhabited

/-- Comparator of `CandidateHeap.Less` for `Compare = "big"`:
`res := d_i - d_j; res > 0`. -/
def bigLess (x y : Candidate) : Bool := x.Distance - y.Distance > 0

/-- Comparator of `CandidateHeap.Less` for any `Compare ≠ "big"`:
`res := d_j - d_i; res > 0`. -/
def smallLess (x y : Candidate) : Bool := y.Distance - x.Distance > 0

/-- Comparator selection of `CandidateHeap.Less` by the `Compare` string. -/
def chCmp (compare : String) : Candidate → Candidate → Bool :=
  if compare = "big" then bigLess else smallLess

/-- Go `h.Swap(i, j)` on a slice, as used by `container/heap`; the sift
loops only call it in bounds, where it exchanges the two positions. -/
def gswap (l : List Candidate) (i j : Nat) : List Candidate :=
  if i < l.length ∧ j < l.length then
    (l.set i (l.getD j default)).set j (l.getD i default)
  else l

/-- Go `container/heap.up`: sift position `j` towards the root. -/
def upLoop (cmp : Candidate → Candidate → Bool) (l : List Candidate) (j : Nat) :
    Nat → List Candidate
  | 0 => l
  | fuel + 1 =>
    let i := (j - 1) / 2
    if i = j ∨ ¬ cmp (l.getD j default) (l.getD i default) then l
    else upLoop cmp (gswap l i j) i fuel

/-- Child selection of Go `container/heap.down`: `j := j1`, replaced by
`j2 = j1 + 1` when the right child exists and compares smaller. -/
def jSelect (cmp : Candidate → Candidate → Bool) (l : List Candidate) (i n : Nat) : Nat :=
  if 2 * i + 1 + 1 < n ∧ cmp (l.getD (2 * i + 1 + 1) default) (l.getD (2 * i + 1) default)
  then 2 * i + 1 + 1 else 2 * i + 1

/-- Go `container/heap.down`: sift position `i` downwards within the first
`n` positions. -/
def downLoop (cmp : Candidate → Candidate → Bool) (l : List Candidate) (i n : Nat) :
    Nat → List Candidate
  | 0 => l
  | fuel + 1 =>
    if 2 * i + 1 ≥ n then l
    else
      if ¬ cmp (l.getD (jSelect cmp l i n) default) (l.getD i default) then l
      else downLoop cmp (gswap l i (jSelect cmp l i n)) (jSelect cmp l i n) n fuel

/-- Go `container/heap.Push`: append, then sift the last position up. -/
def heapPush (cmp : Candidate → Candidate → Bool) (l : List Candidate) (x : Candidate) :
    List Candidate :=
  upLoop cmp (l ++ [x]) l.length (l.length + 1)

/-- Go `container/heap.Pop` on a nonempty heap: swap the root with the last
position, sift the root down within the first `n` positions, then remove
and return the last element (the interface `Pop` of both heap types pops
the final slice element). -/
def heapPopGo (cmp : Candidate → Candidate → Bool) (l : List Candidate) :
    Candidate × List Candidate :=
  ((downLoop cmp (gswap l 0 (l.length - 1)) 0 (l.length - 1) l.length).getD
      (l.length - 1) default,
   (downLoop cmp (gswap l 0 (l.length - 1)) 0 (l.length - 1) l.length).take (l.length - 1))

/-- Go `container/heap.Pop` including the panic on an empty heap. -/
def heapPop? (cmp : Candidate → Candidate → Bool) (l : List Candidate) :
    Option (Candidate × List Candidate) :=
  if l.isEmpty then none else some (heapPopGo cmp l)

/-- Raw interface `Pop` (part_003 `topValue` calls `ch.Pop()` directly,
without the `heap` package): removes and returns the last slice element,
panicking when empty. -/
def rawPop? (l : List Candidate) : Option (Candidate × List Candidate) :=
  match l.getLast? with
  | none => none
  | some x => some (x, l.dropLast)

/-- Loop of Go `container/heap.Init`: `down` at indices `n/2 - 1, …, 0`. -/
def initLoop (cmp : Candidate → Candidate → Bool) (l : List Candidate) :
    Nat → List Candidate
  | 0 => l
  | k + 1 => initLoop cmp (downLoop cmp l k l.length l.length) k

/-- Go `container/heap.Init`. -/
def heapInit (cmp : Candidate → Candidate → Bool) (l : List Candidate) : List Candidate :=
  initLoop cmp l (l.length / 2)

/-- Element mirrors `models.Element`. -/
structure Element where
  ID : Int
  Embeddings : List Int
  Msg : String
deriving DecidableEq, Repr, Inhabited

/-- Zero value of `models.Element`, produced by a Go map read of an absent
key. -/
def zeroElement : Element := { ID := 0, Embeddings := [], Msg := "" }

/-- Go map read `m[k]` (value part), `none` when the key is absent. -/
def mget? {β : Type} (m : List (Int × β)) (k : Int) : Option β :=
  (m.find? (fun p => p.1 = k)).map Prod.snd

/-- Go map write `m[k] = v`: overwrite in place, or append a fresh key. -/
def mset {β : Type} : List (Int × β) → Int → β → List (Int × β)
  | [], k, v => [(k, v)]
  | (k', v') :: rest, k, v =>
    if k' = k then (k, v) :: rest else (k', v') :: mset rest k v

/-- Squared-distance body shared by `Distance` (part_002) and `distance`
(part_001): `for i := range e1 { diff := e1[i] - e2[i]; sum += diff*diff }`.
Indexing `e2` panics (`none`) when `e2` is shorter than `e1`; when `e2` is
longer its tail is ignored, as in the source. -/
def sqDistList : List Int → List Int → Option Int
  | [], _ => some 0
  | _ :: _, [] => none
  | x :: xs, y :: ys => do
    let s ← sqDistList xs ys
    pure ((x - y) * (x - y) + s)

namespace Hnsw

/-- CandidateHeap mirrors `hnswheap.CandidateHeap` of `util/heap`. -/
structure CandidateHeap where
  Candidates : List Candidate
  Compare : String
deriving DecidableEq, Repr, Inhabited

/-- Push through the `heap` package on a `CandidateHeap`. -/
def chPush (ch : CandidateHeap) (x : Candidate) : CandidateHeap :=
  { ch with Candidates := heapPush (chCmp ch.Compare) ch.Candidates x }

/-- Pop through the `heap` package on a nonempty `CandidateHeap`. -/
def chPopGo (ch : CandidateHeap) : Candidate × CandidateHeap :=
  let (c, rest) := heapPopGo (chCmp ch.Compare) ch.Candidates
  (c, { ch with Candidates := rest })

/-- ExtractHeapData returns the node ids of the backing slice, in slice
order, without touching the heap. -/
def ExtractHeapData (ch : CandidateHeap) : List Int :=
  ch.Candidates.map (·.NodeID)

/-- Fresh `CandidateHeap{Compare: "big"}` after `heap.Init` (empty). -/
def emptyBigHeap : CandidateHeap :=
  { Candidates := heapInit (chCmp "big") [], Compare := "big" }

/-- HNSW mirrors the heap-based `HNSW` struct (part_002).  The
`NormalizationML` field only feeds `generateLevel`, which is modelled by
the explicit level stream, and the mutex is a concurrency artefact; both
are omitted. -/
structure HNSW where
  Layers : List (List (Int × CandidateHeap))
  EnterPoint : Int
  M : Int
  maxConnections : Int
  EfConstruction : Int
  MaxLayers : Int
  Elements : List (Int × Element)
deriving DecidableEq, Repr, Inhabited

/-- NewHNSW mirrors the heap-based constructor: `maxConnections = 2*M`,
empty layers, enter point `-1`. -/
def NewHNSW (efConstruction M maxLayers : Int) : HNSW :=
  { Layers := [], EnterPoint := -1, M := M, maxConnections := 2 * M,
    EfConstruction := efConstruction, MaxLayers := maxLayers, Elements := [] }

/-- Distance mirrors the part_002 method (squared model, see file header). -/
def Distance (e1 e2 : Element) : Option Int :=
  sqDistList e1.Embeddings e2.Embeddings

/-- Go `h.Elements[id]`: zero value when absent (a defined Go map read). -/
def elemGet (h : HNSW) (id : Int) : Element :=
  (mget? h.Elements id).getD zeroElement

/-- Go `h.Layers[lc]`: panics (`none`) on a negative or out-of-range index. -/
def layerGet (h : HNSW) (lc : Int) : Option (List (Int × CandidateHeap)) :=
  if lc < 0 then none else h.Layers.get? lc.toNat

/-- Node ids adjacent to `c` at layer `layer` (empty when the layer or the
node is absent); used only to state specifications. -/
def neighborIds (h : HNSW) (layer : Int) (c : Int) : List Int :=
  match layerGet h layer with
  | none => []
  | some lmap =>
    match mget? lmap c with
    | none => []
    | some nh => nh.Candidates.map (·.NodeID)

/-- Inner neighbour loop of part_002 `SearchLayer`
(`for i := 0; i < h.Layers[lc][nc.NodeID].Len(); i++`).  `fc` is the
furthest-candidate snapshot taken *before* the loop and never refreshed
inside it, exactly as in the source.  Returns the updated visited set and
the two heaps. -/
def SearchInner (h : HNSW) (q : Element) (fc : Candidate) (ef : Int) :
    List Candidate → List Int → CandidateHeap → CandidateHeap →
    Option (List Int × CandidateHeap × CandidateHeap)
  | [], V, C, W => some (V, C, W)
  | nb :: rest, V, C, W =>
    let vNode := nb.NodeID
    if vNode ∈ V then SearchInner h q fc ef rest V C W
    else
      let V' := V ++ [vNode]
      match Distance q (elemGet h vNode) with
      | none => none
      | some dv =>
        if fc.Distance > dv ∨ (W.Candidates.length : Int) < ef then
          let tmpC : Candidate := { NodeID := vNode, Distance := dv }
          let C' := chPush C tmpC
          let W' := chPush W tmpC
          let W'' := if (W'.Candidates.length : Int) > ef then (chPopGo W').2 else W'
          SearchInner h q fc ef rest V' C' W''
        else SearchInner h q fc ef rest V' C W

/-- Outer loop of part_002 `SearchLayer` (`for C.Len() > 0`). -/
def SearchLoop (h : HNSW) (q : Element) (ef : Int) (lc : Int) :
    List Int → CandidateHeap → CandidateHeap → Nat → Option CandidateHeap
  | _, _, _, 0 => none
  | V, C, W, fuel + 1 =>
    match C.Candidates with
    | [] => some W
    | _ :: _ =>
      let (nc, Cr) := chPopGo C
      match W.Candidates.head? with
      | none => none
      | some fc =>
        if nc.Distance > fc.Distance then some W
        else
          match layerGet h lc with
          | none => none
          | some lmap =>
            match mget? lmap nc.NodeID with
            | none => none
            | some nbrs =>
              match SearchInner h q fc ef nbrs.Candidates V Cr W with
              | none => none
              | some (V', C', W') => SearchLoop h q ef lc V' C' W' fuel

/-- Fuel bound for `SearchLayer`: each outer iteration pops the frontier
heap, and pushes to it are bounded by one per adjacency slot plus the
seed, so `2 + Σ |adjacency|` iterations always suffice. -/
def searchFuel (h : HNSW) : Nat :=
  2 + (h.Layers.map (fun lmap => (lmap.map (fun p => p.2.Candidates.length)).sum)).sum

/-- SearchLayer mirrors part_002: seed the visited set and both heaps with
the entry point, then run the best-first loop. -/
def SearchLayer (h : HNSW) (q : Element) (entryPoint : Int) (ef : Int) (lc : Int) :
    Option CandidateHeap :=
  match Distance q (elemGet h entryPoint) with
  | none => none
  | some d0 =>
    let qc : Candidate := { NodeID := entryPoint, Distance := d0 }
    let C : CandidateHeap :=
      chPush { Candidates := heapInit (chCmp "small") [], Compare := "small" } qc
    let W : CandidateHeap :=
      chPush { Candidates := heapInit (chCmp "big") [], Compare := "big" } qc
    SearchLoop h q ef lc [entryPoint] C W (searchFuel h)

end Hnsw

namespace Hnsw

/-- Go `R[x] = true` on the result map of the heuristic: a set insert.  The
list keeps insertion order; Go iterates its maps in an unspecified order,
and this embedding fixes insertion order as that order. -/
def Rinsert (R : List Int) (x : Int) : List Int :=
  if x ∈ R then R else R ++ [x]

/-- Closer check of the heuristic: `for r := range R { if
h.Distance(h.Elements[e.NodeID], h.Elements[r]) < e.Distance { closer =
false; break } }`. -/
def closerCheck (h : HNSW) (e : Candidate) : List Int → Option Bool
  | [] => some true
  | r :: rest => do
    let d ← Distance (elemGet h e.NodeID) (elemGet h r)
    if d < e.Distance then pure false else closerCheck h e rest

/-- Initial candidate pushes of the heuristic (`for _, c := range
candidates`). -/
def pushCands (h : HNSW) (q : Element) : List Int → List Candidate → Option (List Candidate)
  | [], W => some W
  | c :: rest, W => do
    let dist ← Distance q (elemGet h c)
    pushCands h q rest (heapPush (chCmp "small") W { NodeID := c, Distance := dist })

/-- Inner extension loop over `h.Layers[layer][c].Candidates`. -/
def extendInner (h : HNSW) (q : Element) :
    List Candidate → List Int → List Candidate → Option (List Int × List Candidate)
  | [], seen, W => some (seen, W)
  | nb :: rest, seen, W =>
    let neighbor := nb.NodeID
    if neighbor ∈ seen then extendInner h q rest seen W
    else do
      let dist ← Distance q (elemGet h neighbor)
      extendInner h q rest (seen ++ [neighbor])
        (heapPush (chCmp "small") W { NodeID := neighbor, Distance := dist })

/-- Outer extension loop of the heuristic (`if extendCandidates`); reading
`h.Layers[layer][c].Candidates` dereferences a nil heap pointer when `c`
is absent from the layer, a panic. -/
def extendOuter (h : HNSW) (q : Element) (layer : Int) :
    List Int → List Int → List Candidate → Option (List Int × List Candidate)
  | [], seen, W => some (seen, W)
  | c :: rest, seen, W => do
    let lmap ← layerGet h layer
    let nbrs ← mget? lmap c
    let (seen', W') ← extendInner h q nbrs.Candidates seen W
    extendOuter h q layer rest seen' W'

/-- Main selection loop of the heuristic (`for W.Len() > 0 && len(R) < M`).
Pops one candidate per iteration, so `W.length` fuel is exact: fuel `0`
coincides with the empty-`W` loop exit. -/
def HeurLoop (h : HNSW) (M : Int) :
    List Candidate → List Candidate → List Int → Nat → Option (List Candidate × List Int)
  | _, Wd, R, 0 => some (Wd, R)
  | W, Wd, R, fuel + 1 =>
    if W ≠ [] ∧ (R.length : Int) < M then
      let (e, W') := heapPopGo (chCmp "small") W
      match closerCheck h e R with
      | none => none
      | some true => HeurLoop h M W' Wd (Rinsert R e.NodeID) fuel
      | some false => HeurLoop h M W' (heapPush (chCmp "small") Wd e) R fuel
    else some (Wd, R)

/-- Refill loop of the heuristic (`for Wd.Len() > 0 && len(R) < M`), when
`keepPrunedConnections` is set. -/
def PrunedLoop (M : Int) : List Candidate → List Int → Nat → List Int
  | _, R, 0 => R
  | Wd, R, fuel + 1 =>
    if Wd ≠ [] ∧ (R.length : Int) < M then
      let (e, Wd') := heapPopGo (chCmp "small") Wd
      PrunedLoop M Wd' (Rinsert R e.NodeID) fuel
    else R

/-- Candidate-extension step of the heuristic (`if extendCandidates { …
}`), producing the working heap the selection loop starts from. -/
def extendStep (h : HNSW) (q : Element) (layer : Int) (candidates : List Int)
    (ext : Bool) (W0 : List Candidate) : Option (List Candidate) :=
  if ext then do
    let (_, w) ← extendOuter h q layer candidates [] W0
    pure w
  else pure W0

/-- SelectNeighborsHeuristic mirrors part_002 (Algorithm 4). -/
def SelectNeighborsHeuristic (h : HNSW) (q : Element) (candidates : List Int)
    (M : Int) (layer : Int) (extendCandidates keepPrunedConnections : Bool) :
    Option (List Int) := do
  let W0 ← pushCands h q candidates []
  let W1 ← extendStep h q layer candidates extendCandidates W0
  let (Wd, R1) ← HeurLoop h M W1 [] [] W1.length
  pure (if keepPrunedConnections then PrunedLoop M Wd R1 Wd.length else R1)

/-- Layer-map write-back `h.Layers[layer] := lmap` (callers establish that
the index is in range; `List.set` is then the Go slice store). -/
def setLayerMap (h : HNSW) (layer : Int) (lmap : List (Int × CandidateHeap)) : HNSW :=
  { h with Layers := h.Layers.set layer.toNat lmap }

/-- addConnection mirrors part_002: push the new edge when below
`maxConnections`; on a full list replace the farthest stored edge when the
new one is strictly closer, else drop the new edge. -/
def addConnection (h : HNSW) (fromId toId : Int) (layer : Int) : Option HNSW := do
  let ft ← Distance (elemGet h fromId) (elemGet h toId)
  let toCandidate : Candidate := { NodeID := toId, Distance := ft }
  let lmap ← layerGet h layer
  let fromHeap ← mget? lmap fromId
  if (fromHeap.Candidates.length : Int) < h.maxConnections then
    pure (setLayerMap h layer (mset lmap fromId (chPush fromHeap toCandidate)))
  else
    match fromHeap.Candidates.head? with
    | none => none
    | some root =>
      if ft < root.Distance then
        pure (setLayerMap h layer
          (mset lmap fromId (chPush (chPopGo fromHeap).2 toCandidate)))
      else
        pure h

/-- generateLevel draws one value from the process-global generator,
modelled as the head of the explicit level stream (see file header); an
exhausted stream yields level 0. -/
def generateLevel (stream : List Int) : Int × List Int :=
  match stream with
  | [] => (0, [])
  | l :: rest => (l, rest)

/-- Layer appended for a new top-level point: `map[int]*CandidateHeap{q.ID:
&CandidateHeap{Compare: "big"}}` after `heap.Init`. -/
def newPointLayer (id : Int) : List (Int × CandidateHeap) :=
  [(id, emptyBigHeap)]

/-- Append loop of Insert (`for i := len(h.Layers); i <= level; i++`),
iterated a precomputed number of times. -/
def appendLayersN (h : HNSW) (id : Int) : Nat → HNSW
  | 0 => h
  | n + 1 => appendLayersN { h with Layers := h.Layers ++ [newPointLayer id] } id n

/-- Greedy descent of Insert and KNNSearch (`W := SearchLayer(q, ep, 1,
lc); ep = W.Candidates[0].NodeID`), iterated from `lc` downwards a
precomputed number of times. -/
def descendLoop (h : HNSW) (q : Element) : Nat → Int → Int → Option Int
  | 0, _, ep => some ep
  | n + 1, lc, ep => do
    let W ← SearchLayer h q ep 1 lc
    match W.Candidates.head? with
    | none => none
    | some c => descendLoop h q n (lc - 1) c.NodeID

/-- Bidirectional connection calls of Insert (`h.addConnection(n, q.ID,
lc); h.addConnection(q.ID, n, lc)` for each selected `n`). -/
def connectAll (h : HNSW) (qid : Int) (lc : Int) : List Int → Option HNSW
  | [] => some h
  | n :: rest => do
    let h1 ← addConnection h n qid lc
    let h2 ← addConnection h1 qid n lc
    connectAll h2 qid lc rest

/-- One iteration of the connect phase of Insert at layer `lc`: register an
empty adjacency heap for `q`, search the layer, select neighbours, link
bidirectionally, and set `ep = neighbors[0]` for the next layer down
(`neighbors[0]` is the root of the max-heap returned by SearchLayer). -/
def connectOnce (h : HNSW) (q : Element) (lc : Int) (ep : Int) : Option (HNSW × Int) := do
  let lmap ← layerGet h lc
  let h1 := setLayerMap h lc (mset lmap q.ID emptyBigHeap)
  let tmpNeighbors ← SearchLayer h1 q ep h1.EfConstruction lc
  let neighbors := ExtractHeapData tmpNeighbors
  let selected ← SelectNeighborsHeuristic h1 q neighbors h1.M lc true true
  let h2 ← connectAll h1 q.ID lc selected
  match neighbors.head? with
  | none => none
  | some n0 => pure (h2, n0)

/-- Connect phase of Insert (`for lc := min(topLevel, level); lc >= 0;
lc--`), iterated a precomputed number of times. -/
def connectLoop (h : HNSW) (q : Element) : Nat → Int → Int → Option HNSW
  | 0, _, _ => some h
  | n + 1, lc, ep => do
    let (h', ep') ← connectOnce h q lc ep
    connectLoop h' q n (lc - 1) ep'

/-- Insert mirrors part_002, threading the global level stream. -/
def Insert (h0 : HNSW) (q : Element) (stream : List Int) : Option (HNSW × List Int) := do
  let (g, stream') := generateLevel stream
  let level := if g > h0.MaxLayers then h0.MaxLayers else g
  let h1 := { h0 with Elements := mset h0.Elements q.ID q }
  let topLevel : Int := (h1.Layers.length : Int) - 1
  let ep := h1.EnterPoint
  let (h2, ep2) ←
    if topLevel ≤ level then
      let hA := appendLayersN h1 q.ID ((level + 1 - (h1.Layers.length : Int)).toNat)
      pure ({ hA with EnterPoint := q.ID }, ep)
    else do
      let epd ← descendLoop h1 q ((topLevel - level).toNat) topLevel ep
      pure (h1, epd)
  let start := min topLevel level
  let h3 ← connectLoop h2 q ((start + 1).toNat) start ep2
  pure (h3, stream')

/-- Build an index by a sequence of Inserts, all drawing from the one
shared level stream; returns the index and the remaining stream. -/
def buildIndex (h : HNSW) : List Element → List Int → Option (HNSW × List Int)
  | [], s => some (h, s)
  | e :: rest, s => do
    let (h', s') ← Insert h e s
    buildIndex h' rest s'

/-- Trim loop of part_003 `topValue` (`for j := 0; j < (ch.Len() - K); j++
{ heap.Pop(ch) }`).  `ch.Len()` is re-evaluated against the shrinking heap
on every test, exactly as in the source. -/
def trimLoop (cmp : Candidate → Candidate → Bool) (K : Int) :
    List Candidate → Int → Nat → List Candidate
  | l, _, 0 => l
  | l, j, fuel + 1 =>
    if j < (l.length : Int) - K then trimLoop cmp K (heapPopGo cmp l).2 (j + 1) fuel
    else l

/-- Extraction loop of part_003 `topValue` (`for j := (index - 1); j > 0;
j-- { res[j] = heap.Pop(ch).NodeID }`): the counter is the current `j`,
and `res[0]` is never written. -/
def fillLoop (cmp : Candidate → Candidate → Bool) :
    Nat → List Candidate → List Int → Option (List Candidate × List Int)
  | 0, l, res => some (l, res)
  | j + 1, l, res =>
    match heapPop? cmp l with
    | none => none
    | some (c, l') => fillLoop cmp j l' (res.set (j + 1) c.NodeID)

/-- Raw-pop loop of part_003 `topValue` for the `topType == ch.Compare`
branch (`res[i] = ch.Pop().NodeID`, the interface `Pop`, not `heap.Pop`). -/
def rawLoop : Nat → Nat → List Candidate → List Int → Option (List Int)
  | 0, _, _, res => some res
  | n + 1, i, l, res =>
    match rawPop? l with
    | none => none
    | some (c, l') => rawLoop n (i + 1) l' (res.set i c.NodeID)

/-- topValue mirrors part_003: `res := make([]int, K)` (zero-filled, panics
on negative `K`), then one of the two extraction branches. -/
def topValue (ch : CandidateHeap) (K : Int) (topType : String) : Option (List Int) :=
  if K < 0 then none
  else
    let res : List Int := List.replicate K.toNat 0
    if topType = ch.Compare then
      rawLoop K.toNat 0 ch.Candidates res
    else
      let cmp := chCmp ch.Compare
      let l1 :=
        if K < (ch.Candidates.length : Int) then
          trimLoop cmp K ch.Candidates 0 (ch.Candidates.length + 1)
        else ch.Candidates
      let index : Int := if K > (l1.length : Int) then (l1.length : Int) else K
      match fillLoop cmp (index - 1).toNat l1 res with
      | none => none
      | some (_, res') => some res'

/-- TopKMinVal mirrors part_003. -/
def TopKMinVal (ch : CandidateHeap) (K : Int) : Option (List Int) :=
  topValue ch K "small"

/-- KNNSearch mirrors part_002: greedy descent from the top layer down to
layer 1 with `ef = 1`, then a layer-0 search with `ef = K` and the
`TopKMinVal` extraction. -/
def KNNSearch (h : HNSW) (q : Element) (K : Int) : Option (List Int) := do
  let ep0 := h.EnterPoint
  let totalLayers := h.Layers.length
  let ep ← descendLoop h q (totalLayers - 1) ((totalLayers : Int) - 1) ep0
  let W ← SearchLayer h q ep K 0
  TopKMinVal W K

end Hnsw

/-- Comparator of part_002/part_001 `SmallCandidates.Less`:
`sc[i].Distance < sc[j].Distance`. -/
def scLess (x y : Candidate) : Bool := x.Distance < y.Distance

/-- Comparator of part_002/part_001 `BigCandidates.Less`:
`bc[i].Distance > bc[j].Distance`. -/
def bcLess (x y : Candidate) : Bool := x.Distance > y.Distance

namespace HnswOne

/-- HNSW mirrors the slice-based `HNSW` struct (part_001): layers are
`map[int][]int`.  `NormalizationML` and the mutex are omitted as in the
heap-based model. -/
structure HNSW where
  Layers : List (List (Int × List Int))
  EnterPoint : Int
  InitConnects : Int
  MaxConnections : Int
  EfConstruction : Int
  MaxLayers : Int
  Elements : List (Int × Element)
deriving DecidableEq, Repr, Inhabited

/-- distance mirrors the part_001 method (same body as part_002
`Distance`; squared model, see file header). -/
def distance (e1 e2 : Element) : Option Int :=
  sqDistList e1.Embeddings e2.Embeddings

/-- Go `h.Elements[id]` for the slice-based struct. -/
def elemGet (h : HNSW) (id : Int) : Element :=
  (mget? h.Elements id).getD zeroElement

/-- Go `h.Layers[lc]` for the slice-based struct. -/
def layerGet (h : HNSW) (lc : Int) : Option (List (Int × List Int)) :=
  if lc < 0 then none else h.Layers.get? lc.toNat

/-- Inner neighbour loop of part_001 `searchLayer`
(`for _, el := range h.Layers[lc][nc.NodeID]`).  Unlike part_002, `fc` is
re-read from `W[0]` for every neighbour, and the push condition compares
in the direction `fc.Distance < distance(q, el)`, exactly as written in
the source. -/
def searchInner (h : HNSW) (q : Element) (ef : Int) :
    List Int → List Int → List Candidate → List Candidate →
    Option (List Int × List Candidate × List Candidate)
  | [], V, C, W => some (V, C, W)
  | el :: rest, V, C, W =>
    if el ∈ V then searchInner h q ef rest V C W
    else
      let V' := V ++ [el]
      match W.head? with
      | none => none
      | some fc =>
        match distance q (elemGet h el) with
        | none => none
        | some d =>
          if fc.Distance < d ∨ (W.length : Int) < ef then
            let C' := heapPush scLess C { NodeID := el, Distance := d }
            let W' := heapPush bcLess W { NodeID := el, Distance := d }
            let W'' := if (W'.length : Int) > ef then (heapPopGo bcLess W').2 else W'
            searchInner h q ef rest V' C' W''
          else searchInner h q ef rest V' C W

/-- Outer loop of part_001 `searchLayer`; a missing node in the layer map
yields a nil slice, which ranges as empty (no panic, unlike part_002). -/
def searchLoop (h : HNSW) (q : Element) (ef : Int) (lc : Int) :
    List Int → List Candidate → List Candidate → Nat → Option Bool
  | _, _, _, 0 => none
  | V, C, W, fuel + 1 =>
    match C with
    | [] => some true
    | _ :: _ =>
      let (nc, Cr) := heapPopGo scLess C
      match W.head? with
      | none => none
      | some fc =>
        if nc.Distance > fc.Distance then some true
        else
          match layerGet h lc with
          | none => none
          | some lmap =>
            let nbrs := (mget? lmap nc.NodeID).getD []
            match searchInner h q ef nbrs V Cr W with
            | none => none
            | some (V', C', W') => searchLoop h q ef lc V' C' W' fuel

/-- Fuel bound for part_001 `searchLayer`, as for the part_002 kernel. -/
def searchFuel (h : HNSW) : Nat :=
  2 + (h.Layers.map (fun lmap => (lmap.map (fun p => p.2.length)).sum)).sum

/-- searchLayer mirrors part_001: it runs the full best-first loop and then
returns the literal `[]int{entryPoint}`, discarding `W` (line 160 of the
source, under the comment `Simplified: replace with real search logic`). -/
def searchLayer (h : HNSW) (q : Element) (entryPoint : Int) (ef : Int) (lc : Int) :
    Option (List Int) :=
  match distance q (elemGet h entryPoint) with
  | none => none
  | some d0 =>
    let qc : Candidate := { NodeID := entryPoint, Distance := d0 }
    let C := heapPush scLess (heapInit scLess []) qc
    let W := heapPush bcLess (heapInit bcLess []) qc
    match searchLoop h q ef lc [entryPoint] C W (searchFuel h) with
    | none => none
    | some _ => some [entryPoint]

end HnswOne

section HeapLemmas

/-- Swapping two positions permutes the list. -/
theorem gswap_perm (l : List Candidate) (i j : Nat) : List.Perm (gswap l i j) l := by
  unfold gswap
  split
  · rename_i hb
    obtain ⟨hi, hj⟩ := hb
    rw [List.getD_eq_getElem l default hj, List.getD_eq_getElem l default hi]
    rw [List.perm_iff_count]
    intro a
    have hj2 : j < (l.set i l[j]).length := by simpa using hj
    rw [List.count_set l[i] a (l.set i l[j]) j hj2, List.count_set l[j] a l i hi,
      List.getElem_set hj2]
    have hxm : l[i] ∈ l := List.getElem_mem hi
    have hym : l[j] ∈ l := List.getElem_mem hj
    by_cases h1 : l[i] = a <;> by_cases h2 : l[j] = a <;>
      simp only [ite_self, h1, h2, beq_iff_eq, if_pos, if_neg, beq_self_eq_true, ite_true]
    · have : 0 < l.count a := List.count_pos_iff.mpr (h1 ▸ hxm)
      omega
    · have : 0 < l.count a := List.count_pos_iff.mpr (h1 ▸ hxm)
      simp only [show (l[j] == a) = false by simpa using h2, if_false]
      omega
    · have : 0 < l.count a := List.count_pos_iff.mpr (h2 ▸ hym)
      simp only [show (l[i] == a) = false by simpa using h1, if_false]
      omega
    · simp only [show (l[i] == a) = false by simpa using h1,
        show (l[j] == a) = false by simpa using h2, if_false]
      omega
  · exact List.Perm.refl l

/-- The sift-up loop permutes the list. -/
theorem upLoop_perm (cmp : Candidate → Candidate → Bool) (fuel : Nat) :
    ∀ (l : List Candidate) (j : Nat), List.Perm (upLoop cmp l j fuel) l := by
  induction fuel with
  | zero => intro l j; simp [upLoop]
  | succ n ih =>
    intro l j
    rw [upLoop]
    split
    · exact List.Perm.refl l
    · exact (ih (gswap l ((j - 1) / 2) j) ((j - 1) / 2)).trans (gswap_perm l _ j)

/-- The sift-down loop permutes the list. -/
theorem downLoop_perm (cmp : Candidate → Candidate → Bool) (fuel : Nat) :
    ∀ (l : List Candidate) (i n : Nat), List.Perm (downLoop cmp l i n fuel) l := by
  induction fuel with
  | zero => intro l i n; simp [downLoop]
  | succ m ih =>
    intro l i n
    rw [downLoop]
    split
    · exact List.Perm.refl l
    · split
      · exact List.Perm.refl l
      · exact (ih _ _ _).trans (gswap_perm l i _)

/-- Push permutes to a cons. -/
theorem heapPush_perm (cmp : Candidate → Candidate → Bool) (l : List Candidate)
    (x : Candidate) : List.Perm (heapPush cmp l x) (x :: l) :=
  (upLoop_perm cmp (l.length + 1) (l ++ [x]) l.length).trans
    (List.perm_append_singleton x l)

/-- Push adds one to the length. -/
theorem heapPush_length (cmp : Candidate → Candidate → Bool) (l : List Candidate)
    (x : Candidate) : (heapPush cmp l x).length = l.length + 1 := by
  simpa using (heapPush_perm cmp l x).length_eq

/-- Membership after a push. -/
theorem mem_heapPush (cmp : Candidate → Candidate → Bool) {l : List Candidate}
    {x y : Candidate} (h : y ∈ heapPush cmp l x) : y = x ∨ y ∈ l := by
  have := (heapPush_perm cmp l x).mem_iff.mp h
  simpa using this

/-- The pushed element is present after a push. -/
theorem self_mem_heapPush (cmp : Candidate → Candidate → Bool) (l : List Candidate)
    (x : Candidate) : x ∈ heapPush cmp l x :=
  (heapPush_perm cmp l x).mem_iff.mpr (List.mem_cons_self x l)

/-- Old elements survive a push. -/
theorem mem_heapPush_of_mem (cmp : Candidate → Candidate → Bool) {l : List Candidate}
    (x : Candidate) {y : Candidate} (h : y ∈ l) : y ∈ heapPush cmp l x :=
  (heapPush_perm cmp l x).mem_iff.mpr (List.mem_cons_of_mem x h)

/-- Pop splits a nonempty heap into the returned element and the rest, up to
permutation. -/
theorem heapPopGo_perm (cmp : Candidate → Candidate → Bool) (l : List Candidate)
    (h : l ≠ []) :
    List.Perm ((heapPopGo cmp l).1 :: (heapPopGo cmp l).2) l := by
  have hpos : 0 < l.length := List.length_pos.mpr h
  unfold heapPopGo
  have hperm : List.Perm (downLoop cmp (gswap l 0 (l.length - 1)) 0 (l.length - 1) l.length) l :=
    (downLoop_perm cmp l.length (gswap l 0 (l.length - 1)) 0 (l.length - 1)).trans
      (gswap_perm l 0 (l.length - 1))
  set l2 := downLoop cmp (gswap l 0 (l.length - 1)) 0 (l.length - 1) l.length with hl2
  have hlen : l2.length = l.length := hperm.length_eq
  have hn : l.length - 1 < l2.length := by omega
  rw [List.getD_eq_getElem l2 default hn]
  refine List.Perm.trans ?_ hperm
  have htake : l2.take (l.length - 1) ++ [l2[l.length - 1]] = l2 := by
    have h1 := List.take_concat_get l2 (l.length - 1) hn
    rw [List.concat_eq_append] at h1
    rw [h1]
    have h2 : l.length - 1 + 1 = l2.length := by omega
    rw [h2]
    exact List.take_length l2
  have := (List.perm_append_singleton l2[l.length - 1] (l2.take (l.length - 1))).symm
  rw [htake] at this
  exact this

/-- The popped element was in the heap. -/
theorem heapPopGo_fst_mem (cmp : Candidate → Candidate → Bool) {l : List Candidate}
    (h : l ≠ []) : (heapPopGo cmp l).1 ∈ l :=
  (heapPopGo_perm cmp l h).mem_iff.mp (List.mem_cons_self _ _)

/-- The remaining elements were in the heap. -/
theorem heapPopGo_snd_subset (cmp : Candidate → Candidate → Bool) {l : List Candidate}
    (h : l ≠ []) {x : Candidate} (hx : x ∈ (heapPopGo cmp l).2) : x ∈ l :=
  (heapPopGo_perm cmp l h).mem_iff.mp (List.mem_cons_of_mem _ hx)

/-- Pop removes exactly one element. -/
theorem heapPopGo_snd_length (cmp : Candidate → Candidate → Bool) {l : List Candidate}
    (h : l ≠ []) : (heapPopGo cmp l).2.length = l.length - 1 := by
  have := (heapPopGo_perm cmp l h).length_eq
  simp only [List.length_cons] at this
  omega

end HeapLemmas

namespace Hnsw

/-- Push on a `CandidateHeap` grows the backing slice by one. -/
theorem chPush_length (ch : CandidateHeap) (x : Candidate) :
    (chPush ch x).Candidates.length = ch.Candidates.length + 1 :=
  heapPush_length (chCmp ch.Compare) ch.Candidates x

/-- Pop on a nonempty `CandidateHeap` shrinks the backing slice by one. -/
theorem chPopGo_length (ch : CandidateHeap) (h : ch.Candidates ≠ []) :
    (chPopGo ch).2.Candidates.length = ch.Candidates.length - 1 :=
  heapPopGo_snd_length (chCmp ch.Compare) h

/-- The inner neighbour loop of `SearchLayer` never empties `W`: each pop is
guarded by a preceding push. -/
theorem SearchInner_ne_nil (h : HNSW) (q : Element) (fc : Candidate) (ef : Int) :
    ∀ (nbrs : List Candidate) (V : List Int) (C W : CandidateHeap)
      (V' : List Int) (C' W' : CandidateHeap),
      SearchInner h q fc ef nbrs V C W = some (V', C', W') →
      W.Candidates ≠ [] → W'.Candidates ≠ [] := by
  intro nbrs
  induction nbrs with
  | nil =>
    intro V C W V' C' W' heq hW
    simp only [SearchInner, Option.some.injEq, Prod.mk.injEq] at heq
    obtain ⟨-, -, h3⟩ := heq
    exact h3 ▸ hW
  | cons nb rest ih =>
    intro V C W V' C' W' heq hW
    rw [SearchInner] at heq
    split at heq
    · exact ih V C W V' C' W' heq hW
    · split at heq
      · exact absurd heq (by simp)
      · rename_i dv hdv
        split at heq
        · simp only [] at heq
          refine ih _ _ _ _ _ _ heq ?_
          have hWpos : 0 < W.Candidates.length := List.length_pos.mpr hW
          have hpush : (chPush W { NodeID := nb.NodeID, Distance := dv }).Candidates.length
              = W.Candidates.length + 1 := chPush_length W _
          split
          · have hne : (chPush W { NodeID := nb.NodeID, Distance := dv }).Candidates ≠ [] := by
              rw [← List.length_pos]
              omega
            have hpop := chPopGo_length
              (chPush W { NodeID := nb.NodeID, Distance := dv }) hne
            rw [← List.length_pos]
            omega
          · rw [← List.length_pos]
            omega
        · exact ih _ _ _ _ _ _ heq hW

/-- The outer loop of `SearchLayer` never empties `W`. -/
theorem SearchLoop_ne_nil (h : HNSW) (q : Element) (ef lc : Int) :
    ∀ (fuel : Nat) (V : List Int) (C W : CandidateHeap) (Wout : CandidateHeap),
      SearchLoop h q ef lc V C W fuel = some Wout →
      W.Candidates ≠ [] → Wout.Candidates ≠ [] := by
  intro fuel
  induction fuel with
  | zero => intro V C W Wout heq hW; exact absurd heq (by simp [SearchLoop])
  | succ n ih =>
    intro V C W Wout heq hW
    rw [SearchLoop] at heq
    repeat' split at heq
    all_goals
      first
      | (injection heq with h1; exact h1 ▸ hW)
      | exact absurd heq (by simp)
      | (rename_i hinner
         exact ih _ _ _ _ heq (SearchInner_ne_nil h q _ ef _ _ _ _ _ _ _ hinner hW))

end Hnsw

namespace Hnsw

/-- Membership after a set insert into `R`. -/
theorem mem_Rinsert {R : List Int} {x y : Int} (h : y ∈ Rinsert R x) : y ∈ R ∨ y = x := by
  unfold Rinsert at h
  split at h
  · exact Or.inl h
  · rcases List.mem_append.mp h with h1 | h1
    · exact Or.inl h1
    · exact Or.inr (List.mem_singleton.mp h1)

/-- A set insert keeps `R` duplicate-free. -/
theorem Rinsert_nodup {R : List Int} {x : Int} (h : R.Nodup) : (Rinsert R x).Nodup := by
  unfold Rinsert
  split
  · exact h
  · rename_i hx
    simpa [List.nodup_append, h] using hx

/-- A set insert grows `R` by at most one. -/
theorem Rinsert_length_le (R : List Int) (x : Int) :
    (Rinsert R x).length ≤ R.length + 1 := by
  unfold Rinsert
  split
  · omega
  · simp

/-- Every candidate pushed by the initial loop of the heuristic carries the
id of one of the input candidates. -/
theorem pushCands_sub (h : HNSW) (q : Element) :
    ∀ (cs : List Int) (acc W : List Candidate), pushCands h q cs acc = some W →
      ∀ x ∈ W, x ∈ acc ∨ x.NodeID ∈ cs := by
  intro cs
  induction cs with
  | nil =>
    intro acc W heq x hx
    simp only [pushCands, Option.some.injEq] at heq
    exact Or.inl (heq ▸ hx)
  | cons c rest ih =>
    intro acc W heq x hx
    simp only [pushCands, Option.bind_eq_bind, Option.bind_eq_some] at heq
    obtain ⟨d, hd, heq⟩ := heq
    rcases ih _ _ heq x hx with h1 | h1
    · rcases mem_heapPush _ h1 with h2 | h2
      · right; rw [h2]; exact List.mem_cons_self _ _
      · exact Or.inl h2
    · right; exact List.mem_cons_of_mem _ h1

/-- Every candidate pushed by the inner extension loop carries either an
old member or the id of one of the adjacent nodes. -/
theorem extendInner_sub (h : HNSW) (q : Element) :
    ∀ (nbrs : List Candidate) (seen : List Int) (W : List Candidate)
      (seen' : List Int) (W' : List Candidate),
      extendInner h q nbrs seen W = some (seen', W') →
      ∀ x ∈ W', x ∈ W ∨ x.NodeID ∈ nbrs.map (·.NodeID) := by
  intro nbrs
  induction nbrs with
  | nil =>
    intro seen W seen' W' heq x hx
    simp only [extendInner, Option.some.injEq, Prod.mk.injEq] at heq
    exact Or.inl (heq.2 ▸ hx)
  | cons nb rest ih =>
    intro seen W seen' W' heq x hx
    rw [extendInner] at heq
    split at heq
    · rcases ih _ _ _ _ heq x hx with h1 | h1
      · exact Or.inl h1
      · right; exact List.mem_cons_of_mem _ h1
    · simp only [Option.bind_eq_bind, Option.bind_eq_some] at heq
      obtain ⟨d, hd, heq⟩ := heq
      rcases ih _ _ _ _ heq x hx with h1 | h1
      · rcases mem_heapPush _ h1 with h2 | h2
        · right; rw [h2]; exact List.mem_cons_self _ _
        · exact Or.inl h2
      · right; exact List.mem_cons_of_mem _ h1

/-- Every candidate pushed by the outer extension loop carries either an old
member or a one-hop neighbour id of one of the input candidates. -/
theorem extendOuter_sub (h : HNSW) (q : Element) (layer : Int) :
    ∀ (cs : List Int) (seen : List Int) (W : List Candidate)
      (seen' : List Int) (W' : List Candidate),
      extendOuter h q layer cs seen W = some (seen', W') →
      ∀ x ∈ W', x ∈ W ∨ ∃ c ∈ cs, x.NodeID ∈ neighborIds h layer c := by
  intro cs
  induction cs with
  | nil =>
    intro seen W seen' W' heq x hx
    simp only [extendOuter, Option.some.injEq, Prod.mk.injEq] at heq
    exact Or.inl (heq.2 ▸ hx)
  | cons c rest ih =>
    intro seen W seen' W' heq x hx
    rw [extendOuter] at heq
    simp only [Option.bind_eq_bind, Option.bind_eq_some] at heq
    obtain ⟨lmap, hlmap, nbrs, hnbrs, p, hinner, heq⟩ := heq
    rcases ih _ _ _ _ heq x hx with h1 | h1
    · rcases extendInner_sub h q nbrs.Candidates _ _ _ _ hinner x h1 with h2 | h2
      · exact Or.inl h2
      · right
        refine ⟨c, List.mem_cons_self _ _, ?_⟩
        simp only [neighborIds, hlmap, hnbrs]
        exact h2
    · obtain ⟨c', hc', hmem⟩ := h1
      exact Or.inr ⟨c', List.mem_cons_of_mem _ hc', hmem⟩


/-- Invariants of the main selection loop: members of the result set come
from the initial set or from the working heap, the discard heap only
collects working-heap members, duplicate-freeness is preserved, and the
size never exceeds `max M 0`. -/
theorem HeurLoop_inv (h : HNSW) (M : Int) :
    ∀ (fuel : Nat) (W Wd : List Candidate) (R : List Int)
      (Wd' : List Candidate) (R' : List Int),
      HeurLoop h M W Wd R fuel = some (Wd', R') →
      (∀ x ∈ R', x ∈ R ∨ ∃ cd ∈ W, cd.NodeID = x) ∧
      (∀ cd ∈ Wd', cd ∈ Wd ∨ cd ∈ W) ∧
      (R.Nodup → R'.Nodup) ∧
      ((R.length : Int) ≤ max M 0 → (R'.length : Int) ≤ max M 0) := by
  intro fuel
  induction fuel with
  | zero =>
    intro W Wd R Wd' R' heq
    simp only [HeurLoop, Option.some.injEq, Prod.mk.injEq] at heq
    obtain ⟨h1, h2⟩ := heq
    subst h1; subst h2
    exact ⟨fun x hx => Or.inl hx, fun cd hcd => Or.inl hcd, id, id⟩
  | succ n ih =>
    intro W Wd R Wd' R' heq
    rw [HeurLoop] at heq
    split at heq
    · rename_i hcond
      obtain ⟨hWne, hRlt⟩ := hcond
      split at heq
      · rename_i e W2 hpair
        have he : e ∈ W := by
          have := heapPopGo_fst_mem (chCmp "small") hWne
          rw [hpair] at this
          exact this
        have hW2 : ∀ cd ∈ W2, cd ∈ W := by
          intro cd hcd
          refine heapPopGo_snd_subset (chCmp "small") hWne ?_
          rw [hpair]
          exact hcd
        split at heq
        · exact absurd heq (by simp)
        · obtain ⟨ih1, ih2, ih3, ih4⟩ := ih _ _ _ _ _ heq
          refine ⟨?_, ?_, ?_, ?_⟩
          · intro x hx
            rcases ih1 x hx with h1 | h1
            · rcases mem_Rinsert h1 with h2 | h2
              · exact Or.inl h2
              · exact Or.inr ⟨e, he, h2.symm⟩
            · obtain ⟨cd, hcd, hcdx⟩ := h1
              exact Or.inr ⟨cd, hW2 cd hcd, hcdx⟩
          · intro cd hcd
            rcases ih2 cd hcd with h1 | h1
            · exact Or.inl h1
            · exact Or.inr (hW2 cd h1)
          · intro hnd
            exact ih3 (Rinsert_nodup hnd)
          · intro hlen
            refine ih4 ?_
            have := Rinsert_length_le R e.NodeID
            have hM0 : M ≤ max M 0 := le_max_left M 0
            omega
        · obtain ⟨ih1, ih2, ih3, ih4⟩ := ih _ _ _ _ _ heq
          refine ⟨?_, ?_, ih3, ih4⟩
          · intro x hx
            rcases ih1 x hx with h1 | h1
            · exact Or.inl h1
            · obtain ⟨cd, hcd, hcdx⟩ := h1
              exact Or.inr ⟨cd, hW2 cd hcd, hcdx⟩
          · intro cd hcd
            rcases ih2 cd hcd with h1 | h1
            · rcases mem_heapPush _ h1 with h2 | h2
              · exact Or.inr (h2 ▸ he)
              · exact Or.inl h2
            · exact Or.inr (hW2 cd h1)
    · simp only [Option.some.injEq, Prod.mk.injEq] at heq
      obtain ⟨h1, h2⟩ := heq
      subst h1; subst h2
      exact ⟨fun x hx => Or.inl hx, fun cd hcd => Or.inl hcd, id, id⟩

/-- Invariants of the refill loop, as for the main loop. -/
theorem PrunedLoop_inv (M : Int) :
    ∀ (fuel : Nat) (Wd : List Candidate) (R : List Int),
      (∀ x ∈ PrunedLoop M Wd R fuel, x ∈ R ∨ ∃ cd ∈ Wd, cd.NodeID = x) ∧
      (R.Nodup → (PrunedLoop M Wd R fuel).Nodup) ∧
      ((R.length : Int) ≤ max M 0 → ((PrunedLoop M Wd R fuel).length : Int) ≤ max M 0) := by
  intro fuel
  induction fuel with
  | zero =>
    intro Wd R
    exact ⟨fun x hx => Or.inl hx, id, id⟩
  | succ n ih =>
    intro Wd R
    rw [PrunedLoop]
    split
    · rename_i hcond
      obtain ⟨hWdne, hRlt⟩ := hcond
      have he : (heapPopGo (chCmp "small") Wd).1 ∈ Wd :=
        heapPopGo_fst_mem (chCmp "small") hWdne
      have hWd2 : ∀ cd ∈ (heapPopGo (chCmp "small") Wd).2, cd ∈ Wd :=
        fun cd hcd => heapPopGo_snd_subset (chCmp "small") hWdne hcd
      obtain ⟨ih1, ih2, ih3⟩ := ih (heapPopGo (chCmp "small") Wd).2
        (Rinsert R (heapPopGo (chCmp "small") Wd).1.NodeID)
      refine ⟨?_, ?_, ?_⟩
      · intro x hx
        rcases ih1 x hx with h1 | h1
        · rcases mem_Rinsert h1 with h2 | h2
          · exact Or.inl h2
          · exact Or.inr ⟨_, he, h2.symm⟩
        · obtain ⟨cd, hcd, hcdx⟩ := h1
          exact Or.inr ⟨cd, hWd2 cd hcd, hcdx⟩
      · intro hnd
        exact ih2 (Rinsert_nodup hnd)
      · intro hlen
        refine ih3 ?_
        have := Rinsert_length_le R (heapPopGo (chCmp "small") Wd).1.NodeID
        have hM0 : M ≤ max M 0 := le_max_left M 0
        omega
    · exact ⟨fun x hx => Or.inl hx, id, id⟩


/-- Pool property of the working heap built by the heuristic before its
selection loop: every candidate is an input candidate or a one-hop
neighbour of one. -/
theorem heurPool (h : HNSW) (q : Element) (candidates : List Int) (layer : Int)
    (ext : Bool) (W0 W1 : List Candidate)
    (hW0 : pushCands h q candidates [] = some W0)
    (hW1 : extendStep h q layer candidates ext W0 = some W1) :
    ∀ x ∈ W1, x.NodeID ∈ candidates ∨
      ∃ c ∈ candidates, x.NodeID ∈ neighborIds h layer c := by
  intro x hx
  have hbase : ∀ y ∈ W0, y.NodeID ∈ candidates := by
    intro y hy
    rcases pushCands_sub h q candidates [] W0 hW0 y hy with h1 | h1
    · exact absurd h1 (List.not_mem_nil y)
    · exact h1
  cases ext with
  | false =>
    simp only [extendStep, Bool.false_eq_true, if_false, Option.pure_def,
      Option.some.injEq] at hW1
    subst hW1
    exact Or.inl (hbase x hx)
  | true =>
    simp only [extendStep, if_true, Option.bind_eq_bind, Option.bind_eq_some,
      Option.pure_def, Option.some.injEq] at hW1
    obtain ⟨pr, hpr, hw⟩ := hW1
    rcases extendOuter_sub h q layer candidates [] W0 pr.1 pr.2
        (by rw [← hpr]) x (by rw [hw]; exact hx) with h1 | h1
    · exact Or.inl (hbase x h1)
    · exact Or.inr h1

/-- C9 body: any successful run of the heuristic returns a duplicate-free
list of at most `max M 0` ids drawn from the candidate pool and its one-hop
neighbourhood. -/
theorem SelectNeighborsHeuristic_spec (h : HNSW) (q : Element) (candidates : List Int)
    (M layer : Int) (ext keep : Bool) (R : List Int)
    (hrun : SelectNeighborsHeuristic h q candidates M layer ext keep = some R) :
    R.Nodup ∧ (R.length : Int) ≤ max M 0 ∧
      (∀ x ∈ R, x ∈ candidates ∨ ∃ c ∈ candidates, x ∈ neighborIds h layer c) := by
  unfold SelectNeighborsHeuristic at hrun
  simp only [Option.bind_eq_bind, Option.bind_eq_some, Option.pure_def,
    Option.some.injEq] at hrun
  obtain ⟨W0, hW0, W1, hW1, p, hp, hR⟩ := hrun
  obtain ⟨Wd, R1⟩ := p
  have hpool := heurPool h q candidates layer ext W0 W1 hW0 hW1
  obtain ⟨ih1, ih2, ih3, ih4⟩ := HeurLoop_inv h M W1.length W1 [] [] Wd R1 hp
  have hR1mem : ∀ x ∈ R1, ∃ cd ∈ W1, cd.NodeID = x := by
    intro x hx
    rcases ih1 x hx with h1 | h1
    · exact absurd h1 (List.not_mem_nil x)
    · exact h1
  have hR1nd : R1.Nodup := ih3 List.nodup_nil
  have hR1len : (R1.length : Int) ≤ max M 0 := ih4 (by simp [le_max_iff])
  have hWdW1 : ∀ cd ∈ Wd, cd ∈ W1 := by
    intro cd hcd
    rcases ih2 cd hcd with h1 | h1
    · exact absurd h1 (List.not_mem_nil cd)
    · exact h1
  have hfin : R.Nodup ∧ (R.length : Int) ≤ max M 0 ∧
      ∀ x ∈ R, ∃ cd ∈ W1, cd.NodeID = x := by
    cases keep with
    | false =>
      simp only [Bool.false_eq_true, if_false] at hR
      subst hR
      exact ⟨hR1nd, hR1len, hR1mem⟩
    | true =>
      simp only [if_true] at hR
      subst hR
      obtain ⟨pl1, pl2, pl3⟩ := PrunedLoop_inv M Wd.length Wd R1
      refine ⟨pl2 hR1nd, pl3 hR1len, ?_⟩
      intro x hx
      rcases pl1 x hx with h1 | h1
      · exact hR1mem x h1
      · obtain ⟨cd, hcd, hcdx⟩ := h1
        exact ⟨cd, hWdW1 cd hcd, hcdx⟩
  refine ⟨hfin.1, hfin.2.1, ?_⟩
  intro x hx
  obtain ⟨cd, hcd, hcdx⟩ := hfin.2.2 x hx
  rcases hpool cd hcd with h1 | h1
  · exact Or.inl (hcdx ▸ h1)
  · obtain ⟨c, hc, hmem⟩ := h1
    exact Or.inr ⟨c, hc, hcdx ▸ hmem⟩

end Hnsw

/-- Reading back the key just written into a Go map model. -/
theorem mget?_mset_self {β : Type} (m : List (Int × β)) (k : Int) (v : β) :
    mget? (mset m k v) k = some v := by
  induction m with
  | nil => simp [mset, mget?]
  | cons p rest ih =>
    obtain ⟨k', v'⟩ := p
    by_cases hk : k' = k
    · simp [mset, hk, mget?]
    · simpa [mset, hk, mget?, List.find?_cons, hk] using ih

/-- Reading any other key after a Go map write. -/
theorem mget?_mset_ne {β : Type} (m : List (Int × β)) (k k' : Int) (v : β)
    (h : k ≠ k') : mget? (mset m k v) k' = mget? m k' := by
  induction m with
  | nil => simp [mset, mget?, h]
  | cons p rest ih =>
    obtain ⟨k0, v0⟩ := p
    by_cases hk : k0 = k
    · subst hk
      simp [mset, mget?, h]
    · by_cases hk' : k0 = k'
      · subst hk'
        simp [mset, hk, mget?]
      · simpa [mset, hk, mget?, hk'] using ih

namespace Hnsw

/-- Writing a layer map back leaves the element store untouched. -/
theorem elemGet_setLayerMap (h : HNSW) (lc : Int) (m : List (Int × CandidateHeap))
    (x : Int) : elemGet (setLayerMap h lc m) x = elemGet h x := rfl

/-- Writing a layer map back and reading the same layer. -/
theorem layerGet_setLayerMap (h : HNSW) (lc : Int) (m m' : List (Int × CandidateHeap))
    (hl : layerGet h lc = some m) :
    layerGet (setLayerMap h lc m') lc = some m' := by
  unfold layerGet at hl ⊢
  split at hl
  · exact absurd hl (by simp)
  · split
    · omega
    · have hb : lc.toNat < h.Layers.length := (List.get?_eq_some.mp hl).1
      simp only [setLayerMap, List.get?_eq_getElem?]
      simpa using List.getElem?_set_eq_of_lt m' hb

/-- Write-back also preserves the capacity field. -/
theorem maxConnections_setLayerMap (h : HNSW) (lc : Int)
    (m : List (Int × CandidateHeap)) : (setLayerMap h lc m).maxConnections = h.maxConnections := rfl

/-- Max-heap shape of a backing slice under the `bigLess` order: every
non-root position compares at most its parent. -/
def maxHeapArr (l : List Candidate) : Prop :=
  ∀ j : Nat, j < l.length → j ≠ 0 →
    (l.getD j default).Distance ≤ (l.getD ((j - 1) / 2) default).Distance

/-- In a max-heap shaped slice the root bounds every position. -/
theorem maxHeapArr_le_root (l : List Candidate) (hl : maxHeapArr l) :
    ∀ k : Nat, k < l.length →
      (l.getD k default).Distance ≤ (l.getD 0 default).Distance := by
  intro k
  induction k using Nat.strong_induction_on with
  | _ k ih =>
    intro hk
    by_cases hk0 : k = 0
    · subst hk0; exact le_refl _
    · have hdiv : (k - 1) / 2 ≤ k - 1 := Nat.div_le_self (k - 1) 2
      have hpar : (k - 1) / 2 < k := by omega
      exact le_trans (hl k hk hk0) (ih ((k - 1) / 2) hpar (hpar.trans hk))

/-- In a max-heap shaped slice the root bounds every member. -/
theorem maxHeapArr_root (l : List Candidate) (hl : maxHeapArr l) :
    ∀ c ∈ l, c.Distance ≤ (l.headD default).Distance := by
  intro c hc
  obtain ⟨k, hk, hEq⟩ := List.mem_iff_getElem.mp hc
  have hle := maxHeapArr_le_root l hl k hk
  rw [List.getD_eq_getElem l default hk, hEq] at hle
  cases l with
  | nil => exact absurd hc (List.not_mem_nil c)
  | cons a t => simpa [List.getD] using hle

end Hnsw

/-- One-dimensional test element used by the concrete scenarios. -/
def elem1 (i x : Int) : Element := { ID := i, Embeddings := [x], Msg := "" }

/-- Slice-based index with two stored points 1 ↦ [0] and 2 ↦ [10], linked
bidirectionally at layer 0, entry point 1. -/
def c1h : HnswOne.HNSW :=
  { Layers := [[(1, [2]), (2, [1])]], EnterPoint := 1, InitConnects := 2,
    MaxConnections := 4, EfConstruction := 100, MaxLayers := 16,
    Elements := [(1, elem1 1 0), (2, elem1 2 10)] }

/-- C1: the claim states that `search_layer` returns the `ef` closest
reachable points, and in particular never the bare singleton `{entry}` when
a strictly closer point is reachable.  The slice-based kernel (part_001)
violates this: on a two-point graph whose non-entry point lies at distance
0 from the query (versus 100 for the entry) and is a direct neighbour of
the entry, `searchLayer` still returns `[entry]` — its final statement is
the literal `return []int{entryPoint}`, contradicting both its own
pseudocode (`return W`) and the spec. -/
theorem c1_code_bug :
    HnswOne.searchLayer c1h (elem1 9 10) 1 2 0 = some [1] ∧
    HnswOne.distance (elem1 9 10) (HnswOne.elemGet c1h 2) = some 0 ∧
    HnswOne.distance (elem1 9 10) (HnswOne.elemGet c1h 1) = some 100 ∧
    mget? (c1h.Layers.getD 0 []) 1 = some [2] ∧ (0 : Int) < 100 :=
  ⟨rfl, rfl, rfl, rfl, by decide⟩

/-- Heap-based index built by two Inserts: 5 ↦ [0] and 7 ↦ [10], both at
level 0. -/
def idx2build : Option (Hnsw.HNSW × List Int) :=
  Hnsw.buildIndex (Hnsw.NewHNSW 100 1 16) [elem1 5 0, elem1 7 10] [0, 0]

/-- The index of `idx2build`. -/
def idx2 : Hnsw.HNSW := (idx2build.getD (Hnsw.NewHNSW 100 1 16, [])).1

/-- C2: the claim states that `knn(q, K)` returns exactly `min(K, |W|)` ids
in ascending distance order.  On the two-point index, `KNNSearch(q, 2)`
with q at the stored point of id 5 returns `[0, 7]`: the extraction loop of
`topValue` runs `for j := index-1; j > 0; j--`, never writes `res[0]`, so
the nearest id 5 is dropped and the zero value 0 — not even a stored id —
is returned in its place. -/
theorem c2_code_bug :
    idx2build.bind (fun p => Hnsw.KNNSearch p.1 (elem1 99 0) 2) = some [0, 7] ∧
    (5 : Int) ∉ ([0, 7] : List Int) ∧
    Hnsw.Distance (elem1 99 0) (Hnsw.elemGet idx2 5) = some 0 ∧
    Hnsw.Distance (elem1 99 0) (Hnsw.elemGet idx2 7) = some 100 :=
  ⟨rfl, by decide, rfl, rfl⟩

/-- Three points on a line, all assigned level 1. -/
def c3build : Option (Hnsw.HNSW × List Int) :=
  Hnsw.buildIndex (Hnsw.NewHNSW 100 1 16) [elem1 1 0, elem1 2 1, elem1 3 2] [1, 1, 1]

/-- C3: the claim states the degree bound M at layers ℓ > 0 (M₀ = 2·M at
layer 0).  With M = 1, after three insertions at level 1, node 2 holds two
neighbours at layer 1: `addConnection` caps every layer at
`maxConnections = 2·M` and never applies the per-layer bound M that the
source's own Algorithm-1 pseudocode (`if lc = 0 then Mmax = Mmax0`)
prescribes. -/
theorem c3_code_bug :
    c3build.bind (fun p => (Hnsw.layerGet p.1 1).bind (fun lm => mget? lm 2)) =
      some { Candidates := [⟨1, 1⟩, ⟨3, 1⟩], Compare := "big" } ∧
    (Hnsw.NewHNSW 100 1 16).M = 1 ∧ ¬ ((2 : Int) ≤ 1) :=
  ⟨rfl, rfl, by decide⟩

/-- Four points with M = 1 (cap 2): inserting 4 ↦ [11] evicts edge 2→3
while 3→2 stays. -/
def c4build : Option (Hnsw.HNSW × List Int) :=
  Hnsw.buildIndex (Hnsw.NewHNSW 100 1 16)
    [elem1 1 0, elem1 2 10, elem1 3 30, elem1 4 11] [0, 0, 0, 0]

/-- C4 counterexample: the claim states the adjacency is symmetric at the
moment each insertion completes.  After the fourth insertion, node 3's
layer-0 list still contains 2, but node 2's list is [1, 4]: linking the new
point 4 to the full node 2 popped 2's farthest edge 2→3, leaving the stored
edge 3→2 without its reverse. -/
theorem c4_counterexample :
    c4build.map (fun p => (Hnsw.neighborIds p.1 0 3, Hnsw.neighborIds p.1 0 2)) =
      some ([2], [1, 4]) ∧
    (2 : Int) ∈ ([2] : List Int) ∧ (3 : Int) ∉ ([1, 4] : List Int) :=
  ⟨rfl, by decide, by decide⟩

/-- C4 amended: Insert issues `addConnection` in both directions for every
selected neighbour, and both edges are actually stored whenever both
endpoints' lists are below `maxConnections`; a full endpoint instead drops
its farthest stored edge or refuses the new one, so symmetry holds only
below capacity. -/
theorem c4_theorem (h : Hnsw.HNSW) (lc u v duv dvu : Int)
    (lmap : List (Int × Hnsw.CandidateHeap)) (uh vh : Hnsw.CandidateHeap)
    (hduv : Hnsw.Distance (Hnsw.elemGet h u) (Hnsw.elemGet h v) = some duv)
    (hdvu : Hnsw.Distance (Hnsw.elemGet h v) (Hnsw.elemGet h u) = some dvu)
    (hlay : Hnsw.layerGet h lc = some lmap)
    (hu : mget? lmap u = some uh) (hv : mget? lmap v = some vh)
    (hne : u ≠ v)
    (hcapu : (uh.Candidates.length : Int) < h.maxConnections)
    (hcapv : (vh.Candidates.length : Int) < h.maxConnections) :
    ∃ h2, (Hnsw.addConnection h u v lc).bind
        (fun h1 => Hnsw.addConnection h1 v u lc) = some h2 ∧
      v ∈ Hnsw.neighborIds h2 lc u ∧ u ∈ Hnsw.neighborIds h2 lc v := by
  have h1eq : Hnsw.addConnection h u v lc =
      some (Hnsw.setLayerMap h lc
        (mset lmap u (Hnsw.chPush uh { NodeID := v, Distance := duv }))) := by
    unfold Hnsw.addConnection
    simp only [Option.bind_eq_bind, Option.bind_eq_some]
    refine ⟨duv, hduv, lmap, hlay, uh, hu, ?_⟩
    rw [if_pos hcapu]
    rfl
  set m1 := mset lmap u (Hnsw.chPush uh { NodeID := v, Distance := duv }) with hm1
  set h1 := Hnsw.setLayerMap h lc m1 with hh1
  have hlay1 : Hnsw.layerGet h1 lc = some m1 :=
    Hnsw.layerGet_setLayerMap h lc lmap m1 hlay
  have hv1 : mget? m1 v = some vh := by
    rw [hm1, mget?_mset_ne lmap u v _ hne]
    exact hv
  have hcapv1 : (vh.Candidates.length : Int) < h1.maxConnections := by
    rw [hh1, Hnsw.maxConnections_setLayerMap]
    exact hcapv
  have hd1 : Hnsw.Distance (Hnsw.elemGet h1 v) (Hnsw.elemGet h1 u) = some dvu := by
    rw [hh1, Hnsw.elemGet_setLayerMap, Hnsw.elemGet_setLayerMap]
    exact hdvu
  set m2 := mset m1 v (Hnsw.chPush vh { NodeID := u, Distance := dvu }) with hm2
  have h2eq : Hnsw.addConnection h1 v u lc = some (Hnsw.setLayerMap h1 lc m2) := by
    unfold Hnsw.addConnection
    simp only [Option.bind_eq_bind, Option.bind_eq_some]
    refine ⟨dvu, hd1, m1, hlay1, vh, hv1, ?_⟩
    rw [if_pos hcapv1]
    rfl
  refine ⟨Hnsw.setLayerMap h1 lc m2, ?_, ?_, ?_⟩
  · rw [h1eq, Option.some_bind, h2eq]
  · have hlay2 : Hnsw.layerGet (Hnsw.setLayerMap h1 lc m2) lc = some m2 :=
      Hnsw.layerGet_setLayerMap h1 lc m1 m2 hlay1
    have hu2 : mget? m2 u = some (Hnsw.chPush uh { NodeID := v, Distance := duv }) := by
      rw [hm2, mget?_mset_ne m1 v u _ (Ne.symm hne), hm1]
      exact mget?_mset_self lmap u _
    simp only [Hnsw.neighborIds, hlay2, hu2]
    refine List.mem_map.mpr ⟨{ NodeID := v, Distance := duv }, ?_, rfl⟩
    simpa [Hnsw.chPush] using
      self_mem_heapPush (chCmp uh.Compare) uh.Candidates { NodeID := v, Distance := duv }
  · have hlay2 : Hnsw.layerGet (Hnsw.setLayerMap h1 lc m2) lc = some m2 :=
      Hnsw.layerGet_setLayerMap h1 lc m1 m2 hlay1
    have hv2 : mget? m2 v = some (Hnsw.chPush vh { NodeID := u, Distance := dvu }) := by
      rw [hm2]
      exact mget?_mset_self m1 v _
    simp only [Hnsw.neighborIds, hlay2, hv2]
    refine List.mem_map.mpr ⟨{ NodeID := u, Distance := dvu }, ?_, rfl⟩
    simpa [Hnsw.chPush] using
      self_mem_heapPush (chCmp vh.Compare) vh.Candidates { NodeID := u, Distance := dvu }

/-- Witness of C4 amended at the two-point index: both heaps are below the
cap of 2, and the edge pair 5↔7 is stored in both directions. -/
theorem c4_witness :
    ∃ h2, (Hnsw.addConnection idx2 5 7 0).bind
        (fun h1 => Hnsw.addConnection h1 7 5 0) = some h2 ∧
      (7 : Int) ∈ Hnsw.neighborIds h2 0 5 ∧ (5 : Int) ∈ Hnsw.neighborIds h2 0 7 :=
  c4_theorem idx2 0 5 7 100 100
    [(5, { Candidates := [⟨7, 100⟩], Compare := "big" }),
     (7, { Candidates := [⟨5, 100⟩], Compare := "big" })]
    { Candidates := [⟨7, 100⟩], Compare := "big" }
    { Candidates := [⟨5, 100⟩], Compare := "big" }
    rfl rfl rfl rfl rfl (by decide) (by decide) (by decide)

/-- Two points 1 ↦ [0], 2 ↦ [1], both at level 1. -/
def c5build : Option (Hnsw.HNSW × List Int) :=
  Hnsw.buildIndex (Hnsw.NewHNSW 100 1 16) [elem1 1 0, elem1 2 1] [1, 1]

/-- The state Insert has reached just before its connect iteration at layer
1 while inserting 3 ↦ [2]: element registered, enter point updated, entry
for the search still the previous point 2. -/
def c5h : Hnsw.HNSW :=
  match c5build with
  | some (h, _) => { h with Elements := mset h.Elements 3 (elem1 3 2), EnterPoint := 3 }
  | none => Hnsw.NewHNSW 100 1 16

/-- The same state after the connect iteration registers the empty
adjacency heap of the new point, as `connectOnce` does before searching. -/
def c5h1 : Hnsw.HNSW :=
  match Hnsw.layerGet c5h 1 with
  | some lmap => Hnsw.setLayerMap c5h 1 (mset lmap 3 Hnsw.emptyBigHeap)
  | none => c5h

/-- C5 counterexample: the claim states that after linking, `ep` for the
next lower layer is the candidate of W nearest to the new point.  In the
connect iteration at layer 1 for the new point 3 ↦ [2], W holds node 1 at
distance 4 and node 2 at distance 1, yet `ep` is set to 1 — `neighbors[0]`
is the root of the max-heap, a farthest candidate, not the nearest
(node 2). -/
theorem c5_counterexample :
    (Hnsw.connectOnce c5h (elem1 3 2) 1 2).map Prod.snd = some 1 ∧
    Hnsw.SearchLayer c5h1 (elem1 3 2) 2 c5h1.EfConstruction 1 =
      some { Candidates := [⟨1, 4⟩, ⟨2, 1⟩], Compare := "big" } ∧
    (1 : Int) < 4 ∧ (2 : Int) ≠ 1 :=
  ⟨rfl, rfl, by decide, by decide⟩

/-- C5 amended: each connect iteration sets the next `ep` to
`neighbors[0]`, the first element of the backing slice of the max-heap W
returned by the layer search — i.e. the heap root, which bounds every
candidate's distance from above whenever the slice is max-heap shaped —
not to the nearest candidate. -/
theorem c5_theorem (h : Hnsw.HNSW) (q : Element) (lc ep : Int)
    (h' : Hnsw.HNSW) (ep' : Int)
    (hrun : Hnsw.connectOnce h q lc ep = some (h', ep')) :
    ∃ lmap W, Hnsw.layerGet h lc = some lmap ∧
      Hnsw.SearchLayer (Hnsw.setLayerMap h lc (mset lmap q.ID Hnsw.emptyBigHeap)) q ep
        h.EfConstruction lc = some W ∧
      W.Candidates.head?.map Candidate.NodeID = some ep' ∧
      (Hnsw.maxHeapArr W.Candidates →
        ∀ c ∈ W.Candidates, c.Distance ≤ (W.Candidates.headD default).Distance) := by
  unfold Hnsw.connectOnce at hrun
  simp only [Option.bind_eq_bind, Option.bind_eq_some] at hrun
  obtain ⟨lmap, hlmap, W, hW, sel, hsel, h2, hconn, hrest⟩ := hrun
  cases hh : (Hnsw.ExtractHeapData W).head? with
  | none => rw [hh] at hrest; simp at hrest
  | some n0 =>
    rw [hh] at hrest
    simp only [Option.pure_def, Option.some.injEq, Prod.mk.injEq] at hrest
    obtain ⟨-, hep⟩ := hrest
    refine ⟨lmap, W, hlmap, hW, ?_, ?_⟩
    · rw [Hnsw.ExtractHeapData, List.head?_map] at hh
      rw [← hep]
      exact hh
    · intro hmax c hc
      exact Hnsw.maxHeapArr_root W.Candidates hmax c hc

/-- The concrete output of the C5 connect iteration. -/
def c5out : Hnsw.HNSW × Int := (Hnsw.connectOnce c5h (elem1 3 2) 1 2).getD (c5h, 0)

/-- Witness of C5 amended at the concrete connect iteration of the
counterexample. -/
theorem c5_witness :
    ∃ lmap W, Hnsw.layerGet c5h 1 = some lmap ∧
      Hnsw.SearchLayer (Hnsw.setLayerMap c5h 1 (mset lmap (elem1 3 2).ID Hnsw.emptyBigHeap))
        (elem1 3 2) 2 c5h.EfConstruction 1 = some W ∧
      W.Candidates.head?.map Candidate.NodeID = some c5out.2 ∧
      (Hnsw.maxHeapArr W.Candidates →
        ∀ c ∈ W.Candidates, c.Distance ≤ (W.Candidates.headD default).Distance) :=
  c5_theorem c5h (elem1 3 2) 1 2 c5out.1 c5out.2 rfl

/-- C6: the claim states that `knn` on an empty index fails with the
EmptyIndex error, leaving the index unchanged.  The code has no emptiness
check and no error channel at all: on the fresh index (no elements, no
layers) `KNNSearch` dereferences the absent entry point and panics
(modelled by `none`) instead of reporting EmptyIndex. -/
theorem c6_code_bug :
    Hnsw.KNNSearch (Hnsw.NewHNSW 100 1 16) (elem1 99 0) 2 = none ∧
    (Hnsw.NewHNSW 100 1 16).Elements = [] ∧ (Hnsw.NewHNSW 100 1 16).Layers = [] :=
  ⟨rfl, rfl, rfl⟩

/-- A one-point index built with id 1 ↦ [0]. -/
def c7build : Option (Hnsw.HNSW × List Int) :=
  Hnsw.buildIndex (Hnsw.NewHNSW 100 1 16) [elem1 1 0] [0]

/-- C7: the claim states that insert fails with DuplicateId on a repeated
id (and DimensionMismatch on a wrong-length vector) with no mutation.
Insert performs no precondition check and returns no error: re-inserting
id 1 with a different vector succeeds and silently overwrites the stored
element, mutating the index. -/
theorem c7_code_bug :
    c7build.bind (fun p => (Hnsw.Insert p.1 (elem1 1 5) p.2).map
      (fun r => mget? r.1.Elements 1)) = some (some (elem1 1 5)) ∧
    c7build.map (fun p => mget? p.1.Elements 1) = some (some (elem1 1 0)) ∧
    elem1 1 5 ≠ elem1 1 0 :=
  ⟨rfl, rfl, by decide⟩

/-- Insertion sequence for the determinism scenario: five points on a
line. -/
def c8seq : List Element := [elem1 10 100, elem1 20 1, elem1 30 0, elem1 40 5, elem1 50 6]

/-- One shared global level stream: the first build consumes the first five
draws, the second build the next five. -/
def c8stream : List Int := [1, 0, 0, 0, 0, 0, 0, 0, 0, 1]

/-- Two successive builds of the same insertion sequence in one process,
then the same query against each. -/
def c8runs : Option (List Int × List Int) := do
  let (hA, rest) ← Hnsw.buildIndex (Hnsw.NewHNSW 1 1 16) c8seq c8stream
  let (hB, _) ← Hnsw.buildIndex (Hnsw.NewHNSW 1 1 16) c8seq rest
  let rA ← Hnsw.KNNSearch hA (elem1 99 100) 2
  let rB ← Hnsw.KNNSearch hB (elem1 99 100) 2
  pure (rA, rB)

/-- C8: the claim states that two index instances built with the same RNG
seed and the same insertion sequence answer every query identically.  The
constructor takes no seed: `generateLevel` draws from the process-global
`math/rand` source, so two instances built in the same process consume
successive prefixes of one stream.  With the shared stream `c8stream`, the
same five-point insertion sequence yields indexes answering the same query
with `[0, 50]` and `[0, 40]`. -/
theorem c8_code_bug :
    c8runs = some ([0, 50], [0, 40]) ∧ ([0, 50] : List Int) ≠ [0, 40] :=
  ⟨rfl, by decide⟩

/-- C9: for every query element, candidate pool C, target count M ≥ 0,
layer, and flag settings, the neighbour-selection heuristic returns a
duplicate-free set R with |R| ≤ M and R ⊆ C ∪ (one-hop neighbours at the
layer of members of C). -/
theorem c9_theorem (h : Hnsw.HNSW) (q : Element) (candidates : List Int)
    (M layer : Int) (ext keep : Bool) (R : List Int)
    (hM : 0 ≤ M)
    (hrun : Hnsw.SelectNeighborsHeuristic h q candidates M layer ext keep = some R) :
    R.Nodup ∧ (R.length : Int) ≤ M ∧
      (∀ x ∈ R, x ∈ candidates ∨ ∃ c ∈ candidates, x ∈ Hnsw.neighborIds h layer c) := by
  obtain ⟨h1, h2, h3⟩ :=
    Hnsw.SelectNeighborsHeuristic_spec h q candidates M layer ext keep R hrun
  rw [max_eq_left hM] at h2
  exact ⟨h1, h2, h3⟩

/-- Concrete heuristic output on the two-point index. -/
def c9out : List Int :=
  (Hnsw.SelectNeighborsHeuristic idx2 (elem1 9 4) [5, 7] 1 0 true true).getD []

/-- Witness of C9 at a concrete run of the heuristic on the two-point
index. -/
theorem c9_witness :
    c9out.Nodup ∧ (c9out.length : Int) ≤ 1 ∧
      (∀ x ∈ c9out, x ∈ [(5 : Int), 7] ∨
        ∃ c ∈ [(5 : Int), 7], x ∈ Hnsw.neighborIds idx2 0 c) :=
  c9_theorem idx2 (elem1 9 4) [5, 7] 1 0 true true c9out (by decide) rfl

/-- C10 (implicit): for ef ≥ 1 and an entry point present in the element
store and in the layer adjacency map, a returning `SearchLayer` yields a
result heap with at least one candidate — so the unchecked
`W.Candidates[0]` and `neighbors[0]` reads that Insert and KNNSearch
perform on it are in bounds.  (The proof shows the invariant that `W` is
seeded with the entry and every pop is guarded by a preceding push.) -/
theorem c10_theorem (h : Hnsw.HNSW) (q : Element) (ep ef lc : Int)
    (W : Hnsw.CandidateHeap)
    (hef : 1 ≤ ef)
    (hel : (mget? h.Elements ep).isSome = true)
    (hlay : ((Hnsw.layerGet h lc).bind (fun lm => mget? lm ep)).isSome = true)
    (hrun : Hnsw.SearchLayer h q ep ef lc = some W) :
    W.Candidates ≠ [] ∧ Hnsw.ExtractHeapData W ≠ [] := by
  unfold Hnsw.SearchLayer at hrun
  split at hrun
  · exact absurd hrun (by simp)
  · rename_i d0 hd0
    simp only [] at hrun
    have hW0 : (Hnsw.chPush
        { Candidates := heapInit (chCmp "big") [], Compare := "big" }
        { NodeID := ep, Distance := d0 }).Candidates ≠ [] := by
      rw [← List.length_pos, Hnsw.chPush_length]
      omega
    have hne := Hnsw.SearchLoop_ne_nil h q ef lc (Hnsw.searchFuel h) [ep] _ _ W hrun hW0
    refine ⟨hne, ?_⟩
    unfold Hnsw.ExtractHeapData
    simpa using hne

/-- Concrete layer search on the two-point index. -/
def c10W : Hnsw.CandidateHeap :=
  (Hnsw.SearchLayer idx2 (elem1 9 4) 5 2 0).getD default

/-- Witness of C10 at a concrete layer search on the two-point index. -/
theorem c10_witness : c10W.Candidates ≠ [] ∧ Hnsw.ExtractHeapData c10W ≠ [] :=
  c10_theorem idx2 (elem1 9 4) 5 2 0 c10W (by decide) (by rfl) (by rfl) rfl
